import Mathlib

/-!
# Souffle: `TypeAnalysis` (AstTypeAnalysis.h) and `LVMRelation` (LVMRelation.h)

A shallow embedding of the two headers.

* `TypeAnalysis::getType` is defined inline in `AstTypeAnalysis.h`; it is embedded
  from the source.  `std::map` is the standard container: it is modelled as a
  key-ordered association list, `find` returning the entry or `none` for `end()`.
* `LVMRelation::insert(const RamDomain*)` and `LVMRelation::setLevel` are defined
  inline in `LVMRelation.h`; they are embedded from the source.  The out-of-line
  `insert(TupleRef)` is only declared there, so it is a parameter of the embedding.
* `TypeLattice` and `TypeAnalysis::analyseTypes` are only declared; their bodies are
  modelled from the specification (sections 3, 4.1, 4.2, 4.3).
-/

namespace souffle

/-! ## Data model -/

/-- Address of an AST argument node: the value of a `const AstArgument*`. -/
abbrev AstArgument := Nat

/-- Modelled from the spec: the class `AnalysisType` (TypeLattice.h is missing).  Section 3:
a Type is `Top`, `Bottom`, or a named declared type, identified by a stable id. -/
inductive AnalysisType where
  | top
  | bottom
  | named (id : Nat)
  deriving DecidableEq, Repr

/-- The container `std::map<const AstArgument*, V>`: its entries in strictly ascending key order
(so every key occurs once). -/
structure StdMap (V : Type) where
  entries : List (AstArgument × V)
  ordered : entries.Pairwise (fun a b => a.1 < b.1)

/-- The call `std::map::find`: the entry with the given key, `none` standing for `end()`. -/
def StdMap.find {V : Type} (m : StdMap V) (key : AstArgument) : Option (AstArgument × V) :=
  m.entries.find? (fun e => e.1 == key)

/-- The private members of `TypeAnalysis`: `argumentTypes` and `analysisLogs`. -/
structure TypeAnalysis where
  argumentTypes : StdMap AnalysisType
  analysisLogs : String

/-- The method `TypeAnalysis::getType`, with the object passed through explicitly.
```
auto found = argumentTypes.find(argument);
assert(found != argumentTypes.end() && "Argument has a type");
return found->second;
```
A failed `assert` aborts; it is the `error` carrying the asserted message. -/
def TypeAnalysis.getType (self : TypeAnalysis) (argument : AstArgument) :
    Except String AnalysisType × TypeAnalysis :=
  let found := self.argumentTypes.find argument
  match found with
  | none => (Except.error "Argument has a type", self)
  | some entry => (Except.ok entry.2, self)

/-! ## LVMRelation -/

/-- A value of the RAM domain (`RamDomain`, declared in RamTypes.h, which is missing): an
integer; no arithmetic on it is used here. -/
abbrev RamDomain := Int

/-- A `const RamDomain*`: the values stored at the pointer and after it. -/
abbrev RawTuple := Nat → RamDomain

/-- The class `TupleRef` (declared in LVMIndex.h, which is missing), as the source builds it in
`TupleRef(tuple, arity)`: a base pointer and a number of fields. -/
structure TupleRef where
  base : RawTuple
  size : Nat

/-- The fields a tuple reference gives access to: `base[0]`, ..., `base[size-1]`. -/
def TupleRef.toList (t : TupleRef) : List RamDomain :=
  (List.range t.size).map t.base

/-- The protected members of `LVMRelation`.  `Index` is declared in LVMIndex.h (missing) and is
the type parameter; `main` is the raw `Index*`. -/
structure LVMRelation (Index : Type) where
  relName : String
  arity : Nat
  attributeTypes : List String
  indexes : List Index
  main : Nat
  level : Nat

/-- The inline overload `bool insert(const RamDomain* tuple)`:
`return insert(TupleRef(tuple, arity));`.  The overload `insert(TupleRef)` is only declared in the
header, so it is the parameter `insertRef` (returned flag and relation after the call). -/
def LVMRelation.insert {Index : Type}
    (insertRef : LVMRelation Index → TupleRef → Bool × LVMRelation Index)
    (self : LVMRelation Index) (tuple : RawTuple) : Bool × LVMRelation Index :=
  insertRef self (TupleRef.mk tuple self.arity)

/-- The inline method `void setLevel(size_t level)`: `this->level = level;`. -/
def LVMRelation.setLevel {Index : Type} (self : LVMRelation Index) (level : Nat) :
    LVMRelation Index :=
  { self with level := level }

/-- Modelled from the spec: the method `getLevel`, only declared in the header (LVMRelation.cpp is
missing), by its comment there, "Return the level of the relation". -/
def LVMRelation.getLevel {Index : Type} (self : LVMRelation Index) : Nat :=
  self.level

/-! ## Type lattice and fixpoint solver (modelled from the specification) -/

/-- Modelled from the spec: the class `TypeLattice` (TypeLattice.h is missing).  Sections 3 and
4.1: the declared types plus the two universal bounds, ordered by `leq`, with `meet` the greatest
lower bound and `join` the least upper bound, and of finite height.  Finite height is recorded by
`height`, a bound on the number of elements of a chain, and a strictly monotone `rank` below it
(the position of an element on its longest chain up from `Bottom`). -/
structure TypeLattice where
  leq : AnalysisType → AnalysisType → Bool
  meet : AnalysisType → AnalysisType → AnalysisType
  join : AnalysisType → AnalysisType → AnalysisType
  height : Nat
  rank : AnalysisType → Nat
  leq_refl : ∀ a, leq a a = true
  leq_trans : ∀ a b c, leq a b = true → leq b c = true → leq a c = true
  leq_antisymm : ∀ a b, leq a b = true → leq b a = true → a = b
  leq_top : ∀ a, leq a AnalysisType.top = true
  bottom_leq : ∀ a, leq AnalysisType.bottom a = true
  meet_leq_left : ∀ a b, leq (meet a b) a = true
  meet_leq_right : ∀ a b, leq (meet a b) b = true
  leq_meet : ∀ a b c, leq c a = true → leq c b = true → leq c (meet a b) = true
  leq_join_left : ∀ a b, leq a (join a b) = true
  leq_join_right : ∀ a b, leq b (join a b) = true
  join_leq : ∀ a b c, leq a c = true → leq b c = true → leq (join a b) c = true
  rank_lt_height : ∀ a, rank a < height
  rank_strict : ∀ a b, leq a b = true → a ≠ b → rank a < rank b

/-- Modelled from the spec: a lattice in which the declared types are pairwise unrelated (no
declared subtype edge), as `Number` and `Symbol` in scenario 1 of section 8. -/
def flatLattice : TypeLattice where
  leq a b := decide (a = AnalysisType.bottom ∨ b = AnalysisType.top ∨ a = b)
  meet a b :=
    if a = b then a
    else if a = AnalysisType.top then b
    else if b = AnalysisType.top then a
    else AnalysisType.bottom
  join a b :=
    if a = b then a
    else if a = AnalysisType.bottom then b
    else if b = AnalysisType.bottom then a
    else AnalysisType.top
  height := 3
  rank a :=
    match a with
    | AnalysisType.bottom => 0
    | AnalysisType.named _ => 1
    | AnalysisType.top => 2
  leq_refl := by intro a; simp
  leq_trans := by
    intro a b c h1 h2
    simp only [decide_eq_true_eq] at h1 h2 ⊢
    rcases h1 with h1 | h1 | h1 <;> rcases h2 with h2 | h2 | h2 <;> simp_all
  leq_antisymm := by
    intro a b h1 h2
    simp only [decide_eq_true_eq] at h1 h2
    rcases h1 with h1 | h1 | h1 <;> rcases h2 with h2 | h2 | h2 <;> simp_all
  leq_top := by intro a; simp
  bottom_leq := by intro a; simp
  meet_leq_left := by
    intro a b
    simp only [decide_eq_true_eq]
    split_ifs <;> simp_all
  meet_leq_right := by
    intro a b
    simp only [decide_eq_true_eq]
    split_ifs <;> simp_all
  leq_meet := by
    intro a b c h1 h2
    simp only [decide_eq_true_eq] at h1 h2 ⊢
    split_ifs <;> rcases h1 with h1 | h1 | h1 <;> rcases h2 with h2 | h2 | h2 <;> simp_all
  leq_join_left := by
    intro a b
    simp only [decide_eq_true_eq]
    split_ifs <;> simp_all
  leq_join_right := by
    intro a b
    simp only [decide_eq_true_eq]
    split_ifs <;> simp_all
  join_leq := by
    intro a b c h1 h2
    simp only [decide_eq_true_eq] at h1 h2 ⊢
    split_ifs <;> rcases h1 with h1 | h1 | h1 <;> rcases h2 with h2 | h2 | h2 <;> simp_all
  rank_lt_height := by intro a; cases a <;> simp
  rank_strict := by
    intro a b h1 h2
    simp only [decide_eq_true_eq] at h1
    cases a <;> cases b <;> simp_all

/-- Modelled from the spec: membership in the part of the scenario 4 lattice at or below
`Number` (id 0): `Bottom`, `Number`, `Even` (id 1), `Odd` (id 2). -/
def underNumber (a : AnalysisType) : Bool :=
  decide (a = AnalysisType.bottom ∨ a = AnalysisType.named 0 ∨ a = AnalysisType.named 1 ∨
    a = AnalysisType.named 2)

/-- Modelled from the spec: the order of scenario 4 of section 8, with the declared subtype edges
`Even <: Number` and `Odd <: Number` (ids 1 and 2 under id 0); every other declared type is
unrelated to the rest. -/
def subtypeLeq (a b : AnalysisType) : Bool :=
  decide (a = AnalysisType.bottom ∨ b = AnalysisType.top ∨ a = b ∨
    (a = AnalysisType.named 1 ∧ b = AnalysisType.named 0) ∨
    (a = AnalysisType.named 2 ∧ b = AnalysisType.named 0))

/-- Modelled from the spec: the lattice of scenario 4 of section 8 (two declared subtypes of
`Number`), of height 4: `Bottom`, `Even`, `Number`, `Top`. -/
def subtypeLattice : TypeLattice where
  leq := subtypeLeq
  meet a b := if subtypeLeq a b then a else if subtypeLeq b a then b else AnalysisType.bottom
  join a b :=
    if subtypeLeq a b then b
    else if subtypeLeq b a then a
    else if underNumber a && underNumber b then AnalysisType.named 0
    else AnalysisType.top
  height := 4
  rank a :=
    match a with
    | AnalysisType.bottom => 0
    | AnalysisType.named 0 => 2
    | AnalysisType.named _ => 1
    | AnalysisType.top => 3
  leq_refl := by intro a; simp [subtypeLeq]
  leq_trans := by
    intro a b c h1 h2
    simp only [subtypeLeq, decide_eq_true_eq] at h1 h2 ⊢
    rcases h1 with h1 | h1 | h1 | h1 | h1 <;> rcases h2 with h2 | h2 | h2 | h2 | h2 <;> simp_all
  leq_antisymm := by
    intro a b h1 h2
    simp only [subtypeLeq, decide_eq_true_eq] at h1 h2
    rcases h1 with h1 | h1 | h1 | h1 | h1 <;> rcases h2 with h2 | h2 | h2 | h2 | h2 <;> simp_all
  leq_top := by intro a; simp [subtypeLeq]
  bottom_leq := by intro a; simp [subtypeLeq]
  meet_leq_left := by
    intro a b
    dsimp only
    split_ifs with h1 h2
    · simp [subtypeLeq]
    · exact h2
    · simp [subtypeLeq]
  meet_leq_right := by
    intro a b
    dsimp only
    split_ifs with h1 h2
    · exact h1
    · simp [subtypeLeq]
    · simp [subtypeLeq]
  leq_meet := by
    intro a b c h1 h2
    dsimp only
    split_ifs with h3 h4
    · exact h1
    · exact h2
    · simp only [subtypeLeq, decide_eq_true_eq] at h1 h2 h3 h4 ⊢
      rcases h1 with h1 | h1 | h1 | h1 | h1 <;> rcases h2 with h2 | h2 | h2 | h2 | h2 <;> simp_all
  leq_join_left := by
    intro a b
    dsimp only
    split_ifs with h1 h2 h3
    · exact h1
    · simp [subtypeLeq]
    · simp only [underNumber, Bool.and_eq_true, decide_eq_true_eq] at h3
      simp only [subtypeLeq, decide_eq_true_eq]
      rcases h3.1 with h | h | h | h <;> simp [h]
    · simp [subtypeLeq]
  leq_join_right := by
    intro a b
    dsimp only
    split_ifs with h1 h2 h3
    · simp [subtypeLeq]
    · exact h2
    · simp only [underNumber, Bool.and_eq_true, decide_eq_true_eq] at h3
      simp only [subtypeLeq, decide_eq_true_eq]
      rcases h3.2 with h | h | h | h <;> simp [h]
    · simp [subtypeLeq]
  join_leq := by
    intro a b c h1 h2
    dsimp only
    split_ifs with h3 h4 h5
    · exact h2
    · exact h1
    · simp only [underNumber, Bool.and_eq_true, decide_eq_true_eq] at h5
      simp only [subtypeLeq, decide_eq_true_eq] at h1 h2 h3 h4 ⊢
      rcases h1 with h1 | h1 | h1 | h1 | h1 <;> rcases h2 with h2 | h2 | h2 | h2 | h2 <;> simp_all
    · simp only [underNumber, Bool.and_eq_true, decide_eq_true_eq, not_and_or] at h5
      simp only [subtypeLeq, decide_eq_true_eq] at h1 h2 h3 h4 ⊢
      rcases h1 with h1 | h1 | h1 | h1 | h1 <;> rcases h2 with h2 | h2 | h2 | h2 | h2 <;> simp_all
  rank_lt_height := by
    intro a
    cases a with
    | top => simp
    | bottom => simp
    | named n => rcases n with _ | n <;> simp
  rank_strict := by
    intro a b h1 h2
    simp only [subtypeLeq, decide_eq_true_eq] at h1
    rcases h1 with h1 | h1 | h1 | h1 | h1
    · subst h1
      cases b with
      | top => simp
      | bottom => exact absurd rfl h2
      | named n => rcases n with _ | n <;> simp
    · subst h1
      cases a with
      | top => exact absurd rfl h2
      | bottom => simp
      | named n => rcases n with _ | n <;> simp
    · exact absurd h1 h2
    · simp [h1.1, h1.2]
    · simp [h1.1, h1.2]

/-- Modelled from the spec: a typing constraint (sections 3 and 4.2; built in AstTypeAnalysis.cpp,
which is missing).  `equal`: two occurrences of one variable share a type.  `bound`: the term is
at most the given type (a declared attribute type).  `functorResult`: the result term is tied to
the type its signature gives for the types of the operand terms; the signature is kept as that
function of the operand types, whatever the resolution policy that section 9 leaves open.
`constant`: the immediate `Bound` of a literal constant to its intrinsic type (section 4.2). -/
inductive Constraint where
  | equal (a b : AstArgument)
  | bound (term : AstArgument) (type : AnalysisType)
  | functorResult (result : AstArgument) (args : List AstArgument)
      (signature : List AnalysisType → AnalysisType)
  | constant (term : AstArgument) (intrinsic : AnalysisType)

/-- Modelled from the spec: whether a term is a literal constant of the clause, that is, carries
an immediate `Bound` to an intrinsic type (section 4.2). -/
def isLiteral (cs : List Constraint) (t : AstArgument) : Bool :=
  cs.any (fun k =>
    match k with
    | Constraint.constant t2 _ => decide (t2 = t)
    | _ => false)

/-- Modelled from the spec: the per-clause map from term to assigned type (the mapping of a
TypingResult, section 3; what `analyseTypes` returns), entry by entry. -/
abbrev Typing := List (AstArgument × AnalysisType)

/-- Modelled from the spec: the working type of a term in a typing; a term with no entry is
unconstrained, `Top` (section 4.3). -/
def Typing.get (σ : Typing) (t : AstArgument) : AnalysisType :=
  match σ.lookup t with
  | some v => v
  | none => AnalysisType.top

/-- Modelled from the spec: one update of section 4.3, "recompute the involved term's value as the
`meet` of their current value and the value implied by the constraint". -/
def Typing.narrow (L : TypeLattice) (σ : Typing) (t : AstArgument) (implied : AnalysisType) :
    Typing :=
  σ.map (fun e => if e.1 = t then (e.1, L.meet e.2 implied) else e)

/-- Modelled from the spec: section 4.3, "Initialize every term's working type to `Top`": one
entry for each distinct term of the clause. -/
def initialTyping (terms : List AstArgument) : Typing :=
  terms.dedup.map (fun t => (t, AnalysisType.top))

/-- Modelled from the spec: the update of a term by a constraint other than a constant's own
bound.  Section 4.2: a literal constant is assigned its intrinsic type "with no further
propagation needed (it never changes)", so the update leaves a literal constant as it is. -/
def Typing.narrowUnless (L : TypeLattice) (literal : AstArgument → Bool) (σ : Typing)
    (t : AstArgument) (implied : AnalysisType) : Typing :=
  if literal t = true then σ else σ.narrow L t implied

/-- Modelled from the spec: the effect of one constraint on the working typing (sections 3, 4.2
and 4.3).  `equal` gives both terms the shared meet of their values; `constant` gives the literal
its intrinsic type, the immediate `Bound` on its value; no other constraint recomputes a term that
`literal` marks as a literal constant. -/
def Constraint.apply (L : TypeLattice) (literal : AstArgument → Bool) (σ : Typing) :
    Constraint → Typing
  | Constraint.bound t ty => σ.narrowUnless L literal t ty
  | Constraint.equal a b =>
      let shared := L.meet (σ.get a) (σ.get b)
      (σ.narrowUnless L literal a shared).narrowUnless L literal b shared
  | Constraint.functorResult r args signature =>
      σ.narrowUnless L literal r (signature (args.map σ.get))
  | Constraint.constant t intrinsic => σ.narrow L t intrinsic

/-- Modelled from the spec: the constraints `cs` applied in turn to a typing (section 4.3, "for
every constraint"), the literal constants being those that `literal` marks. -/
def applyAll (L : TypeLattice) (literal : AstArgument → Bool) (cs : List Constraint)
    (σ : Typing) : Typing :=
  cs.foldl (fun s c => c.apply L literal s) σ

/-- Modelled from the spec: one solver round of section 4.3, every constraint of the clause
applied in turn. -/
def solverRound (L : TypeLattice) (cs : List Constraint) (σ : Typing) : Typing :=
  applyAll L (isLiteral cs) cs σ

/-- Modelled from the spec: the solver loop of section 4.3, "Repeat ... Continue rounds until no
term's value changes", bounded by `fuel` passes over the constraints.  It returns the number of
passes (the rounds that changed a value, and the closing pass that changes nothing and ends the
loop) and the converged typing, `none` when the fuel ends before a pass leaves the typing
unchanged. -/
def solverLoop (L : TypeLattice) (cs : List Constraint) : Nat → Typing → Option (Nat × Typing)
  | 0, _ => none
  | fuel + 1, σ =>
      let next := solverRound L cs σ
      if next = σ then some (1, σ)
      else (solverLoop L cs fuel next).map (fun r => (r.1 + 1, r.2))

/-- Modelled from the spec: the number of passes given to the solver loop for a clause with
`terms` distinct terms (section 4.3 argues termination from the finite height). -/
def roundBudget (L : TypeLattice) (terms : Nat) : Nat :=
  (L.height - 1) * terms + 1

/-- Modelled from the spec: the fixpoint solver of section 4.3 run on the constraints of a clause,
from every term at `Top`. -/
def solve (L : TypeLattice) (terms : List AstArgument) (cs : List Constraint) :
    Option (Nat × Typing) :=
  solverLoop L cs (roundBudget L terms.dedup.length) (initialTyping terms)

/-- Modelled from the spec: the static method `TypeAnalysis::analyseTypes` (declared in
AstTypeAnalysis.h, defined in the missing AstTypeAnalysis.cpp): "a map mapping each contained
argument to a type", the converged typing of the clause.  The clause is given by its argument
occurrences and by the constraints that section 4.2 builds from it. -/
def analyseTypes (L : TypeLattice) (terms : List AstArgument) (cs : List Constraint) : Typing :=
  match solve L terms cs with
  | some r => r.2
  | none => initialTyping terms

/-- Modelled from the spec: the validity verdict of a TypingResult (section 3): `Valid`, or
`Invalid` naming the terms that landed on `Bottom` or remained on `Top`. -/
inductive Verdict where
  | valid
  | invalid (offending : List AstArgument)
  deriving DecidableEq, Repr

/-- Modelled from the spec: the terms an `Invalid` verdict names (section 3), those on `Top` or
on `Bottom`. -/
def offendingTerms (σ : Typing) : List AstArgument :=
  (σ.filter (fun e => decide (e.2 = AnalysisType.top ∨ e.2 = AnalysisType.bottom))).map Prod.fst

/-- Modelled from the spec: the verdict of section 4.3 on a converged typing. -/
def verdict (σ : Typing) : Verdict :=
  if offendingTerms σ = [] then Verdict.valid else Verdict.invalid (offendingTerms σ)

/-- Two typings of the same terms, the first entry by entry at most the second along `leq`. -/
def Typing.le (L : TypeLattice) (τ σ : Typing) : Prop :=
  List.Forall₂ (fun e2 e1 => e2.1 = e1.1 ∧ L.leq e2.2 e1.2 = true) τ σ

/-- The sum of the ranks of the types of a typing: what a round that changes it decreases. -/
def Typing.weight (L : TypeLattice) (σ : Typing) : Nat :=
  (σ.map (fun e => L.rank e.2)).sum

/-! ## Concrete states used by the witnesses -/

/-- A `TypeAnalysis` state with two analysed arguments, at addresses 10 and 20. -/
def sampleAnalysis : TypeAnalysis where
  argumentTypes :=
    { entries := [(10, AnalysisType.named 1), (20, AnalysisType.bottom)]
      ordered := by simp }
  analysisLogs := "clause 1: invalid"

/-- A set-like model of the out-of-line `insert(TupleRef)`: the relation keeps its tuples in its
first index and the flag tells whether the tuple was new. -/
def sampleInsertRef (r : LVMRelation (List (List RamDomain))) (t : TupleRef) :
    Bool × LVMRelation (List (List RamDomain)) :=
  match r.indexes with
  | [] => (true, { r with indexes := [[t.toList]] })
  | ix :: rest =>
      if t.toList ∈ ix then (false, r) else (true, { r with indexes := (t.toList :: ix) :: rest })

/-- A binary relation holding the tuple (1, 2). -/
def sampleRelation : LVMRelation (List (List RamDomain)) where
  relName := "edge"
  arity := 2
  attributeTypes := ["i:number", "i:number"]
  indexes := [[[1, 2]]]
  main := 0
  level := 0

/-- A raw tuple whose first two values are 1 and 2, followed by other memory. -/
def sampleTuple : RawTuple := fun i => if i = 0 then 1 else if i = 1 then 2 else 7

/-- Another raw tuple with the same first two values and different memory after them. -/
def otherTuple : RawTuple := fun i => if i = 0 then 1 else if i = 1 then 2 else 9

/-- The constraints of a clause with a literal constant (term 0, intrinsic type `named 1`) in an
attribute position declared `named 2`, unified with a variable (term 1) whose position is
declared `named 1`. -/
def sampleConstraints : List Constraint :=
  [Constraint.constant 0 (AnalysisType.named 1), Constraint.bound 0 (AnalysisType.named 2),
    Constraint.equal 0 1, Constraint.bound 1 (AnalysisType.named 1)]

/-! ## Theorems: `TypeAnalysis::getType` -/

theorem find_of_mem_ordered {V : Type} (k : AstArgument) (v : V) :
    ∀ l : List (AstArgument × V), l.Pairwise (fun a b => a.1 < b.1) → (k, v) ∈ l →
      l.find? (fun e => e.1 == k) = some (k, v) := by
  intro l
  induction l with
  | nil => intro _ h; simp at h
  | cons e l ih =>
    intro ho hm
    rw [List.pairwise_cons] at ho
    rcases List.mem_cons.mp hm with h | h
    · subst h
      simp [List.find?_cons]
    · have hlt : e.1 < k := ho.1 (k, v) h
      have hne : (e.1 == k) = false := by
        simp only [beq_eq_false_iff_ne, ne_eq]
        exact Nat.ne_of_lt hlt
      rw [List.find?_cons, hne]
      exact ih ho.2 h

theorem StdMap.find_of_mem {V : Type} (m : StdMap V) (k : AstArgument) (v : V)
    (h : (k, v) ∈ m.entries) : m.find k = some (k, v) :=
  find_of_mem_ordered k v m.entries m.ordered h

theorem StdMap.find_eq_none_iff {V : Type} (m : StdMap V) (k : AstArgument) :
    m.find k = none ↔ ∀ v, (k, v) ∉ m.entries := by
  unfold StdMap.find
  rw [List.find?_eq_none]
  constructor
  · intro h v hv
    exact h (k, v) hv (by simp)
  · intro h e he hk
    have hk2 : e.1 = k := by simpa using hk
    apply h e.2
    rw [← hk2]
    exact he

/-- C1: for every `TypeAnalysis` state and every argument with an entry in `argumentTypes`,
`getType` returns exactly the type stored in that entry. -/
theorem getType_returns_stored_type (self : TypeAnalysis) (argument : AstArgument)
    (type : AnalysisType) (h : (argument, type) ∈ self.argumentTypes.entries) :
    (self.getType argument).1 = Except.ok type := by
  unfold TypeAnalysis.getType
  simp only [StdMap.find_of_mem self.argumentTypes argument type h]

/-- Witness of C1 on the sample state: the argument at address 10 has type `named 1`. -/
theorem getType_returns_stored_type_witness :
    (10, AnalysisType.named 1) ∈ sampleAnalysis.argumentTypes.entries ∧
      (sampleAnalysis.getType 10).1 = Except.ok (AnalysisType.named 1) :=
  ⟨by decide, getType_returns_stored_type sampleAnalysis 10 (AnalysisType.named 1) (by decide)⟩

/-- C2: `getType` fails with the "Argument has a type" assertion exactly when the argument has no
entry in `argumentTypes`, and for such an argument it returns no type at all. -/
theorem getType_fails_iff_no_entry (self : TypeAnalysis) (argument : AstArgument) :
    ((self.getType argument).1 = Except.error "Argument has a type" ↔
        ∀ type, (argument, type) ∉ self.argumentTypes.entries) ∧
      ((∀ type, (argument, type) ∉ self.argumentTypes.entries) →
        ∀ type, (self.getType argument).1 ≠ Except.ok type) := by
  have key : (self.getType argument).1 = Except.error "Argument has a type" ↔
      ∀ type, (argument, type) ∉ self.argumentTypes.entries := by
    rw [← StdMap.find_eq_none_iff]
    unfold TypeAnalysis.getType
    cases hf : self.argumentTypes.find argument with
    | none => simp
    | some e => simp
  refine ⟨key, ?_⟩
  intro h type hok
  rw [key.mpr h] at hok
  cases hok

/-- C3: `getType` is query-only: whether it returns or fails, the object after the call is the
object before it, so `argumentTypes` (its entries) and `analysisLogs` are unchanged. -/
theorem getType_query_only (self : TypeAnalysis) (argument : AstArgument) :
    (self.getType argument).2 = self ∧
      (self.getType argument).2.argumentTypes.entries = self.argumentTypes.entries ∧
      (self.getType argument).2.analysisLogs = self.analysisLogs := by
  have h : (self.getType argument).2 = self := by
    unfold TypeAnalysis.getType
    cases self.argumentTypes.find argument <;> rfl
  exact ⟨h, by rw [h], by rw [h]⟩

/-! ## Theorems: `LVMRelation` -/

/-- C9: `insert(const RamDomain*)` is `insert(TupleRef)` on the reference made of the pointer and
the relation's arity: same flag, same relation afterwards; that reference has `arity` fields, the
first `arity` values at the pointer, so two raw tuples that agree on them are inserted alike by
every `insert(TupleRef)` that reads a reference through its fields. -/
theorem insert_raw_eq_insert_ref {Index : Type}
    (insertRef : LVMRelation Index → TupleRef → Bool × LVMRelation Index)
    (self : LVMRelation Index) (tuple : RawTuple) :
    (self.insert insertRef tuple).1 = (insertRef self (TupleRef.mk tuple self.arity)).1 ∧
      (self.insert insertRef tuple).2 = (insertRef self (TupleRef.mk tuple self.arity)).2 ∧
      (TupleRef.mk tuple self.arity).size = self.arity ∧
      (TupleRef.mk tuple self.arity).toList = (List.range self.arity).map tuple ∧
      ((∀ r t1 t2, t1.toList = t2.toList → insertRef r t1 = insertRef r t2) →
        ∀ other : RawTuple, (∀ i, i < self.arity → other i = tuple i) →
          self.insert insertRef other = self.insert insertRef tuple) := by
  refine ⟨rfl, rfl, rfl, rfl, ?_⟩
  intro hread other hagree
  unfold LVMRelation.insert
  apply hread
  unfold TupleRef.toList
  apply List.map_congr_left
  intro i hi
  exact hagree i (List.mem_range.mp hi)

/-- Witness of C9 on the sample relation: two raw tuples that agree on the first two values are
inserted alike, and the tuple (1, 2), already present, is reported as not new. -/
theorem insert_raw_eq_insert_ref_witness :
    sampleRelation.insert sampleInsertRef otherTuple =
        sampleRelation.insert sampleInsertRef sampleTuple ∧
      (sampleRelation.insert sampleInsertRef sampleTuple).1 = false :=
  ⟨(insert_raw_eq_insert_ref sampleInsertRef sampleRelation sampleTuple).2.2.2.2
      (by
        intro r t1 t2 h
        simp only [sampleInsertRef, h])
      otherTuple
      (by
        intro i hi
        have hi2 : i < 2 := hi
        unfold otherTuple sampleTuple
        split_ifs <;> first | rfl | omega),
    by decide⟩

/-- C10: `setLevel(l)` leaves the level equal to `l`, changes no other member, and a second
`setLevel(l)` changes nothing more. -/
theorem setLevel_frame {Index : Type} (self : LVMRelation Index) (l : Nat) :
    (self.setLevel l).level = l ∧
      (self.setLevel l).getLevel = l ∧
      (self.setLevel l).relName = self.relName ∧
      (self.setLevel l).arity = self.arity ∧
      (self.setLevel l).attributeTypes = self.attributeTypes ∧
      (self.setLevel l).indexes = self.indexes ∧
      (self.setLevel l).main = self.main ∧
      (self.setLevel l).setLevel l = self.setLevel l :=
  ⟨rfl, rfl, rfl, rfl, rfl, rfl, rfl, rfl⟩

/-! ## Theorems: the type lattice -/

theorem TypeLattice.meet_comm (L : TypeLattice) (a b : AnalysisType) :
    L.meet a b = L.meet b a :=
  L.leq_antisymm _ _
    (L.leq_meet b a _ (L.meet_leq_right a b) (L.meet_leq_left a b))
    (L.leq_meet a b _ (L.meet_leq_right b a) (L.meet_leq_left b a))

theorem TypeLattice.meet_of_leq (L : TypeLattice) (a b : AnalysisType) (h : L.leq a b = true) :
    L.meet a b = a :=
  L.leq_antisymm _ _ (L.meet_leq_left a b) (L.leq_meet a b a (L.leq_refl a) h)

theorem TypeLattice.meet_assoc (L : TypeLattice) (a b c : AnalysisType) :
    L.meet a (L.meet b c) = L.meet (L.meet a b) c := by
  apply L.leq_antisymm
  · apply L.leq_meet
    · apply L.leq_meet
      · exact L.meet_leq_left _ _
      · exact L.leq_trans _ _ _ (L.meet_leq_right _ _) (L.meet_leq_left _ _)
    · exact L.leq_trans _ _ _ (L.meet_leq_right _ _) (L.meet_leq_right _ _)
  · apply L.leq_meet
    · exact L.leq_trans _ _ _ (L.meet_leq_left _ _) (L.meet_leq_left _ _)
    · apply L.leq_meet
      · exact L.leq_trans _ _ _ (L.meet_leq_left _ _) (L.meet_leq_right _ _)
      · exact L.meet_leq_right _ _

/-- C5: in every type lattice `meet` is commutative, associative and idempotent, `Top` is its
neutral element and `Bottom` is absorbing. -/
theorem meet_bounded_semilattice (L : TypeLattice) (a b c : AnalysisType) :
    L.meet a b = L.meet b a ∧
      L.meet a (L.meet b c) = L.meet (L.meet a b) c ∧
      L.meet a a = a ∧
      L.meet a AnalysisType.top = a ∧
      L.meet a AnalysisType.bottom = AnalysisType.bottom := by
  refine ⟨L.meet_comm a b, L.meet_assoc a b c, L.meet_of_leq a a (L.leq_refl a),
    L.meet_of_leq a _ (L.leq_top a), ?_⟩
  rw [L.meet_comm]
  exact L.meet_of_leq _ a (L.bottom_leq a)

/-! ## Lemmas: typings and rounds -/

theorem TypeLattice.rank_mono (L : TypeLattice) (a b : AnalysisType) (h : L.leq a b = true) :
    L.rank a ≤ L.rank b := by
  by_cases hab : a = b
  · rw [hab]
  · exact Nat.le_of_lt (L.rank_strict a b h hab)

theorem Typing.le_refl (L : TypeLattice) (σ : Typing) : Typing.le L σ σ := by
  induction σ with
  | nil => exact List.Forall₂.nil
  | cons e σ ih => exact List.Forall₂.cons ⟨rfl, L.leq_refl e.2⟩ ih

theorem Typing.le_trans (L : TypeLattice) {ρ τ σ : Typing} (h1 : Typing.le L ρ τ)
    (h2 : Typing.le L τ σ) : Typing.le L ρ σ := by
  unfold Typing.le at *
  induction h1 generalizing σ with
  | nil => cases h2; exact List.Forall₂.nil
  | cons hd _ ih =>
    cases h2 with
    | cons hd2 tl2 =>
      exact List.Forall₂.cons ⟨hd.1.trans hd2.1, L.leq_trans _ _ _ hd.2 hd2.2⟩ (ih tl2)

theorem Typing.le_keys (L : TypeLattice) {τ σ : Typing} (h : Typing.le L τ σ) :
    τ.map Prod.fst = σ.map Prod.fst := by
  unfold Typing.le at h
  induction h with
  | nil => rfl
  | cons hd _ ih => simp [hd.1, ih]

theorem Typing.le_get (L : TypeLattice) {τ σ : Typing} (h : Typing.le L τ σ) (t : AstArgument) :
    L.leq (τ.get t) (σ.get t) = true := by
  unfold Typing.le at h
  induction h with
  | nil => exact L.leq_refl _
  | @cons e2 e1 τ σ hd _ ih =>
    obtain ⟨k2, v2⟩ := e2
    obtain ⟨k1, v1⟩ := e1
    simp only at hd
    obtain ⟨hk, hv⟩ := hd
    subst hk
    unfold Typing.get at ih ⊢
    simp only [List.lookup_cons]
    cases hb : (t == k2)
    · exact ih
    · exact hv

theorem Typing.weight_le (L : TypeLattice) {τ σ : Typing} (h : Typing.le L τ σ) :
    τ.weight L ≤ σ.weight L := by
  unfold Typing.le at h
  unfold Typing.weight
  induction h with
  | nil => exact Nat.le_refl _
  | cons hd _ ih =>
    simp only [List.map_cons, List.sum_cons]
    exact Nat.add_le_add (L.rank_mono _ _ hd.2) ih

theorem Typing.weight_lt (L : TypeLattice) {τ σ : Typing} (h : Typing.le L τ σ) (hne : τ ≠ σ) :
    τ.weight L < σ.weight L := by
  unfold Typing.le at h
  induction h with
  | nil => exact absurd rfl hne
  | @cons e2 e1 τ σ hd tl ih =>
    have hw : Typing.weight L τ ≤ Typing.weight L σ := Typing.weight_le L tl
    unfold Typing.weight at hw ih ⊢
    simp only [List.map_cons, List.sum_cons]
    by_cases he : e2 = e1
    · subst he
      have hts : τ ≠ σ := fun hts => hne (by rw [hts])
      exact Nat.add_lt_add_left (ih hts) _
    · have hv : e2.2 ≠ e1.2 := fun hv => he (Prod.ext hd.1 hv)
      exact Nat.add_lt_add_of_lt_of_le (L.rank_strict _ _ hd.2 hv) hw

theorem Typing.narrow_le (L : TypeLattice) (σ : Typing) (t : AstArgument) (x : AnalysisType) :
    Typing.le L (σ.narrow L t x) σ := by
  unfold Typing.le Typing.narrow
  induction σ with
  | nil => exact List.Forall₂.nil
  | cons e σ ih =>
    refine List.Forall₂.cons ?_ ih
    by_cases h : e.1 = t
    · simp only [h, if_true]
      exact ⟨trivial, L.meet_leq_left _ _⟩
    · simp only [h, if_false]
      exact ⟨trivial, L.leq_refl _⟩

theorem Typing.narrowUnless_le (L : TypeLattice) (literal : AstArgument → Bool) (σ : Typing)
    (t : AstArgument) (x : AnalysisType) : Typing.le L (σ.narrowUnless L literal t x) σ := by
  unfold Typing.narrowUnless
  split_ifs
  · exact Typing.le_refl L σ
  · exact Typing.narrow_le L σ t x

theorem Constraint.apply_le (L : TypeLattice) (literal : AstArgument → Bool) (σ : Typing)
    (c : Constraint) : Typing.le L (c.apply L literal σ) σ := by
  cases c with
  | equal a b =>
    exact Typing.le_trans L (Typing.narrowUnless_le L literal _ b _)
      (Typing.narrowUnless_le L literal σ a _)
  | bound t ty => exact Typing.narrowUnless_le L literal σ t ty
  | functorResult r args signature => exact Typing.narrowUnless_le L literal σ r _
  | constant t intrinsic => exact Typing.narrow_le L σ t intrinsic

theorem applyAll_cons (L : TypeLattice) (literal : AstArgument → Bool) (k : Constraint)
    (cs : List Constraint) (σ : Typing) :
    applyAll L literal (k :: cs) σ = applyAll L literal cs (k.apply L literal σ) := rfl

theorem applyAll_le (L : TypeLattice) (literal : AstArgument → Bool) (cs : List Constraint)
    (σ : Typing) : Typing.le L (applyAll L literal cs σ) σ := by
  induction cs generalizing σ with
  | nil => exact Typing.le_refl L σ
  | cons c cs ih =>
    rw [applyAll_cons]
    exact Typing.le_trans L (ih (c.apply L literal σ)) (Constraint.apply_le L literal σ c)

theorem solverRound_le (L : TypeLattice) (cs : List Constraint) (σ : Typing) :
    Typing.le L (solverRound L cs σ) σ :=
  applyAll_le L (isLiteral cs) cs σ

/-! ## Lemmas: the solver loop -/

theorem solverLoop_succ (L : TypeLattice) (cs : List Constraint) (fuel : Nat) (σ : Typing) :
    solverLoop L cs (fuel + 1) σ =
      if solverRound L cs σ = σ then some (1, σ)
      else (solverLoop L cs fuel (solverRound L cs σ)).map (fun r => (r.1 + 1, r.2)) := rfl

theorem solverLoop_converges (L : TypeLattice) (cs : List Constraint) :
    ∀ (fuel : Nat) (σ : Typing), σ.weight L < fuel →
      ∃ n τ, solverLoop L cs fuel σ = some (n, τ) ∧ 0 < n ∧ n ≤ σ.weight L + 1 ∧
        solverRound L cs τ = τ ∧ Typing.le L τ σ := by
  intro fuel
  induction fuel with
  | zero => intro σ h; exact absurd h (Nat.not_lt_zero _)
  | succ fuel ih =>
    intro σ h
    rw [solverLoop_succ]
    by_cases hfix : solverRound L cs σ = σ
    · refine ⟨1, σ, ?_, Nat.one_pos, Nat.le_add_left _ _, hfix, Typing.le_refl L σ⟩
      simp [hfix]
    · have hle := solverRound_le L cs σ
      have hlt := Typing.weight_lt L hle hfix
      obtain ⟨n, τ, hrun, _, hn, hτ, hτle⟩ := ih (solverRound L cs σ) (by omega)
      refine ⟨n + 1, τ, ?_, Nat.succ_pos _, by omega, hτ, Typing.le_trans L hτle hle⟩
      simp [hfix, hrun]

theorem solverLoop_more_fuel (L : TypeLattice) (cs : List Constraint) :
    ∀ (fuel : Nat) (σ : Typing) (r : Nat × Typing), solverLoop L cs fuel σ = some r →
      ∀ k, solverLoop L cs (fuel + k) σ = some r := by
  intro fuel
  induction fuel with
  | zero => intro σ r h; simp [solverLoop] at h
  | succ fuel ih =>
    intro σ r h k
    rw [Nat.add_right_comm, solverLoop_succ]
    rw [solverLoop_succ] at h
    by_cases hfix : solverRound L cs σ = σ
    · simpa [hfix] using h
    · simp only [hfix, if_false] at h ⊢
      cases hrun : solverLoop L cs fuel (solverRound L cs σ) with
      | none => rw [hrun] at h; simp at h
      | some r2 =>
        rw [hrun] at h
        rw [ih _ r2 hrun k]
        exact h

theorem solverLoop_invariant (L : TypeLattice) (cs : List Constraint) (P : Typing → Prop)
    (hP : ∀ σ, P σ → P (solverRound L cs σ)) :
    ∀ (fuel : Nat) (σ : Typing) (r : Nat × Typing), P σ → solverLoop L cs fuel σ = some r →
      P r.2 := by
  intro fuel
  induction fuel with
  | zero => intro σ r _ h; simp [solverLoop] at h
  | succ fuel ih =>
    intro σ r hσ h
    rw [solverLoop_succ] at h
    by_cases hfix : solverRound L cs σ = σ
    · simp only [hfix, if_true, Option.some.injEq] at h
      rw [← h]
      exact hσ
    · simp only [hfix, if_false] at h
      cases hrun : solverLoop L cs fuel (solverRound L cs σ) with
      | none => rw [hrun] at h; simp at h
      | some r2 =>
        rw [hrun] at h
        simp only [Option.map_some', Option.some.injEq] at h
        rw [← h]
        exact ih _ r2 (hP σ hσ) hrun

theorem initialTyping_weight (L : TypeLattice) (terms : List AstArgument) :
    (initialTyping terms).weight L = terms.dedup.length * L.rank AnalysisType.top := by
  unfold initialTyping Typing.weight
  induction terms.dedup with
  | nil => simp
  | cons t l ih =>
    simp only [List.map_cons, List.sum_cons, List.length_cons, ih]
    rw [Nat.succ_mul, Nat.add_comm]

theorem initialTyping_weight_lt (L : TypeLattice) (terms : List AstArgument) :
    (initialTyping terms).weight L < roundBudget L terms.dedup.length := by
  rw [initialTyping_weight]
  unfold roundBudget
  have h := L.rank_lt_height AnalysisType.top
  have h2 : L.rank AnalysisType.top ≤ L.height - 1 := by omega
  have h3 := Nat.mul_le_mul_left terms.dedup.length h2
  rw [Nat.mul_comm (L.height - 1)]
  omega

theorem initialTyping_keys (terms : List AstArgument) :
    (initialTyping terms).map Prod.fst = terms.dedup := by
  unfold initialTyping
  simp [List.map_map, Function.comp_def]

/-- The solver started from every term at `Top` returns: it performs `n` rounds, at most the
budget, and ends on a typing of the clause's terms that a further round leaves unchanged. -/
theorem solve_returns (L : TypeLattice) (terms : List AstArgument) (cs : List Constraint) :
    ∃ n τ, solve L terms cs = some (n, τ) ∧ analyseTypes L terms cs = τ ∧ 0 < n ∧
      n ≤ (L.height - 1) * terms.dedup.length + 1 ∧ solverRound L cs τ = τ ∧
      Typing.le L τ (initialTyping terms) ∧ τ.map Prod.fst = terms.dedup := by
  obtain ⟨n, τ, hrun, hpos, hn, hfix, hle⟩ :=
    solverLoop_converges L cs _ _ (initialTyping_weight_lt L terms)
  have hb := initialTyping_weight_lt L terms
  unfold roundBudget at hb
  refine ⟨n, τ, hrun, ?_, hpos, by omega, hfix, hle, ?_⟩
  · unfold analyseTypes solve
    rw [hrun]
  · rw [Typing.le_keys L hle, initialTyping_keys]

/-! ## Lemmas: reading a typing -/

theorem Typing.get_cons (k : AstArgument) (w : AnalysisType) (σ : Typing) (t : AstArgument) :
    Typing.get ((k, w) :: σ) t = if t = k then w else Typing.get σ t := by
  unfold Typing.get
  simp only [List.lookup_cons]
  by_cases h : t = k
  · simp [h]
  · have hb : (t == k) = false := by simpa using h
    simp [hb, h]

theorem Typing.get_of_mem (σ : Typing) (hnd : (σ.map Prod.fst).Nodup) (t : AstArgument)
    (v : AnalysisType) (h : (t, v) ∈ σ) : σ.get t = v := by
  induction σ with
  | nil => simp at h
  | cons e σ ih =>
    obtain ⟨k, w⟩ := e
    simp only [List.map_cons, List.nodup_cons] at hnd
    rw [Typing.get_cons]
    rcases List.mem_cons.mp h with h | h
    · cases h
      simp
    · have htk : t ≠ k := by
        intro htk
        apply hnd.1
        rw [← htk]
        exact List.mem_map_of_mem Prod.fst h
      simp only [htk, if_false]
      exact ih hnd.2 h

theorem Typing.mem_of_key (σ : Typing) (t : AstArgument) (h : t ∈ σ.map Prod.fst) :
    (t, σ.get t) ∈ σ := by
  induction σ with
  | nil => simp at h
  | cons e σ ih =>
    obtain ⟨k, w⟩ := e
    rw [Typing.get_cons]
    by_cases htk : t = k
    · simp [htk]
    · simp only [htk, if_false]
      simp only [List.map_cons, List.mem_cons] at h
      rcases h with h | h
      · exact absurd h htk
      · exact List.mem_cons_of_mem _ (ih h)

theorem Typing.narrow_get (L : TypeLattice) (σ : Typing) (t : AstArgument) (x : AnalysisType)
    (u : AstArgument) :
    (σ.narrow L t x).get u =
      if u = t ∧ u ∈ σ.map Prod.fst then L.meet (σ.get u) x else σ.get u := by
  induction σ with
  | nil => simp [Typing.narrow]
  | cons e σ ih =>
    obtain ⟨k, w⟩ := e
    unfold Typing.narrow at ih ⊢
    simp only [List.map_cons]
    by_cases hkt : k = t
    · simp only [hkt, if_true]
      rw [Typing.get_cons, Typing.get_cons, ih]
      by_cases hut : u = t
      · simp [hut]
      · simp [hut]
    · simp only [hkt, if_false]
      rw [Typing.get_cons, Typing.get_cons, ih]
      by_cases huk : u = k
      · have hut : u ≠ t := by rw [huk]; exact hkt
        simp [huk, hkt]
      · have hmem : u ∈ k :: List.map Prod.fst σ ↔ u ∈ List.map Prod.fst σ := by
          rw [List.mem_cons]
          exact ⟨fun h => h.resolve_left huk, Or.inr⟩
        simp only [huk, if_false]
        by_cases hc : u = t ∧ u ∈ List.map Prod.fst σ
        · rw [if_pos hc, if_pos ⟨hc.1, hmem.mpr hc.2⟩]
        · rw [if_neg hc, if_neg (fun h => hc ⟨h.1, hmem.mp h.2⟩)]

theorem Typing.narrow_get_other (L : TypeLattice) (σ : Typing) (t : AstArgument)
    (x : AnalysisType) (u : AstArgument) (h : u ≠ t) : (σ.narrow L t x).get u = σ.get u := by
  rw [Typing.narrow_get]
  simp [h]

theorem offendingTerms_mem (σ : Typing) (hnd : (σ.map Prod.fst).Nodup) (t : AstArgument) :
    t ∈ offendingTerms σ ↔
      t ∈ σ.map Prod.fst ∧ (σ.get t = AnalysisType.top ∨ σ.get t = AnalysisType.bottom) := by
  unfold offendingTerms
  simp only [List.mem_map, List.mem_filter, decide_eq_true_eq]
  constructor
  · rintro ⟨e, ⟨he, hp⟩, rfl⟩
    have hg : σ.get e.1 = e.2 := Typing.get_of_mem σ hnd e.1 e.2 he
    exact ⟨⟨e, he, rfl⟩, by rw [hg]; exact hp⟩
  · rintro ⟨hk, hp⟩
    exact ⟨(t, σ.get t), ⟨Typing.mem_of_key σ t (List.mem_map.mpr hk), hp⟩, rfl⟩

/-! ## Lemmas: what a round does to a literal constant -/

theorem isLiteral_of_mem (cs : List Constraint) (c : AstArgument) (ty : AnalysisType)
    (h : Constraint.constant c ty ∈ cs) : isLiteral cs c = true := by
  unfold isLiteral
  rw [List.any_eq_true]
  exact ⟨Constraint.constant c ty, h, by simp⟩

theorem Typing.narrowUnless_get_literal (L : TypeLattice) (literal : AstArgument → Bool)
    (σ : Typing) (t : AstArgument) (x : AnalysisType) (c : AstArgument)
    (hc : literal c = true) : (σ.narrowUnless L literal t x).get c = σ.get c := by
  unfold Typing.narrowUnless
  split_ifs with ht
  · rfl
  · apply Typing.narrow_get_other
    intro hct
    rw [hct] at hc
    exact ht hc

theorem Constraint.apply_keys (L : TypeLattice) (literal : AstArgument → Bool) (σ : Typing)
    (k : Constraint) : (k.apply L literal σ).map Prod.fst = σ.map Prod.fst :=
  Typing.le_keys L (Constraint.apply_le L literal σ k)

theorem Constraint.apply_above_literal (L : TypeLattice) (literal : AstArgument → Bool)
    (σ : Typing) (k : Constraint) (c : AstArgument) (ty : AnalysisType)
    (hc : literal c = true) (hone : ∀ ty2, k = Constraint.constant c ty2 → ty2 = ty)
    (h : L.leq ty (σ.get c) = true) : L.leq ty ((k.apply L literal σ).get c) = true := by
  cases k with
  | equal a b =>
    simp only [Constraint.apply]
    rw [Typing.narrowUnless_get_literal L literal _ b _ c hc,
      Typing.narrowUnless_get_literal L literal _ a _ c hc]
    exact h
  | bound t ty2 =>
    simp only [Constraint.apply]
    rw [Typing.narrowUnless_get_literal L literal _ t _ c hc]
    exact h
  | functorResult r args signature =>
    simp only [Constraint.apply]
    rw [Typing.narrowUnless_get_literal L literal _ r _ c hc]
    exact h
  | constant t ty2 =>
    simp only [Constraint.apply]
    rw [Typing.narrow_get]
    split_ifs with hct
    · have hty : ty2 = ty := hone ty2 (by rw [hct.1])
      rw [hty]
      exact L.leq_meet _ _ _ h (L.leq_refl ty)
    · exact h

theorem applyAll_above_literal (L : TypeLattice) (literal : AstArgument → Bool)
    (c : AstArgument) (ty : AnalysisType) (hc : literal c = true) :
    ∀ (cs : List Constraint) (σ : Typing),
      (∀ ty2, Constraint.constant c ty2 ∈ cs → ty2 = ty) →
      L.leq ty (σ.get c) = true → L.leq ty ((applyAll L literal cs σ).get c) = true := by
  intro cs
  induction cs with
  | nil => intro σ _ h; exact h
  | cons k cs ih =>
    intro σ hone h
    rw [applyAll_cons]
    apply ih (k.apply L literal σ) (fun ty2 h2 => hone ty2 (List.mem_cons_of_mem _ h2))
    apply Constraint.apply_above_literal L literal σ k c ty hc _ h
    intro ty2 hk
    apply hone ty2
    rw [hk]
    exact List.mem_cons_self _ _

theorem applyAll_constant_leq (L : TypeLattice) (literal : AstArgument → Bool)
    (c : AstArgument) (ty : AnalysisType) :
    ∀ (cs : List Constraint) (σ : Typing), Constraint.constant c ty ∈ cs →
      c ∈ σ.map Prod.fst → L.leq ((applyAll L literal cs σ).get c) ty = true := by
  intro cs
  induction cs with
  | nil => intro σ h; simp at h
  | cons k cs ih =>
    intro σ hb hc
    rw [applyAll_cons]
    rcases List.mem_cons.mp hb with h | h
    · subst h
      have h1 := Typing.le_get L
        (applyAll_le L literal cs ((Constraint.constant c ty).apply L literal σ)) c
      have h2 : ((Constraint.constant c ty).apply L literal σ).get c = L.meet (σ.get c) ty := by
        simp only [Constraint.apply]
        rw [Typing.narrow_get]
        simp [hc]
      rw [h2] at h1
      exact L.leq_trans _ _ _ h1 (L.meet_leq_right _ _)
    · apply ih (k.apply L literal σ) h
      rw [Constraint.apply_keys]
      exact hc

theorem initialTyping_get (terms : List AstArgument) (t : AstArgument) :
    (initialTyping terms).get t = AnalysisType.top := by
  unfold initialTyping
  induction terms.dedup with
  | nil => rfl
  | cons k l ih =>
    simp only [List.map_cons]
    rw [Typing.get_cons, ih]
    simp

/-! ## Theorems: `analyseTypes` and the solver -/

/-- Scenario 1 of section 8, `C(x) :- A(x), B(x).` with `A(x: named 1)` and `B(x: named 2)`: the
occurrences of `x` (terms 0, 1, 2) are linked by `equal`, all converge to `Bottom`, and the
verdict names them. -/
theorem scenario_conflicting_bounds :
    analyseTypes flatLattice [0, 1, 2]
        [Constraint.bound 1 (AnalysisType.named 1), Constraint.bound 2 (AnalysisType.named 2),
          Constraint.equal 0 1, Constraint.equal 1 2] =
        [(0, AnalysisType.bottom), (1, AnalysisType.bottom), (2, AnalysisType.bottom)] ∧
      verdict [(0, AnalysisType.bottom), (1, AnalysisType.bottom), (2, AnalysisType.bottom)] =
        Verdict.invalid [0, 1, 2] := by
  constructor
  · decide
  · decide

/-- Scenario 4 of section 8: one variable with an occurrence bound to `Even` (term 0) and one
bound to `Odd` (term 1): both converge to `Bottom`, the clause is invalid. -/
theorem scenario_sibling_subtypes :
    analyseTypes subtypeLattice [0, 1]
        [Constraint.bound 0 (AnalysisType.named 1), Constraint.bound 1 (AnalysisType.named 2),
          Constraint.equal 0 1] =
        [(0, AnalysisType.bottom), (1, AnalysisType.bottom)] ∧
      verdict [(0, AnalysisType.bottom), (1, AnalysisType.bottom)] = Verdict.invalid [0, 1] := by
  constructor
  · decide
  · decide

/-- Scenario 3 of section 8, `E(y) :- F(x).` with `y` (term 0) in no typed position and `x`
(term 1) bound to `named 1`: `y` stays on `Top` and the verdict names it. -/
theorem scenario_unconstrained_term :
    analyseTypes flatLattice [0, 1] [Constraint.bound 1 (AnalysisType.named 1)] =
        [(0, AnalysisType.top), (1, AnalysisType.named 1)] ∧
      verdict [(0, AnalysisType.top), (1, AnalysisType.named 1)] = Verdict.invalid [0] := by
  constructor
  · decide
  · decide

/-- C4: the typing `analyseTypes` returns for a clause is `Valid` exactly when no argument of the
clause is mapped to `Top` or to `Bottom`; an argument on `Top` or `Bottom` makes the verdict
`Invalid`, and names that argument. -/
theorem verdict_valid_iff (L : TypeLattice) (terms : List AstArgument) (cs : List Constraint) :
    (verdict (analyseTypes L terms cs) = Verdict.valid ↔
        ∀ t ∈ terms, (analyseTypes L terms cs).get t ≠ AnalysisType.top ∧
          (analyseTypes L terms cs).get t ≠ AnalysisType.bottom) ∧
      (∀ t ∈ terms, ((analyseTypes L terms cs).get t = AnalysisType.top ∨
          (analyseTypes L terms cs).get t = AnalysisType.bottom) →
        verdict (analyseTypes L terms cs) =
            Verdict.invalid (offendingTerms (analyseTypes L terms cs)) ∧
          t ∈ offendingTerms (analyseTypes L terms cs)) := by
  obtain ⟨n, τ, _, hτ, _, _, _, _, hkeys⟩ := solve_returns L terms cs
  rw [hτ]
  have hnd : (τ.map Prod.fst).Nodup := by rw [hkeys]; exact List.nodup_dedup terms
  have hmem : ∀ t, t ∈ offendingTerms τ ↔
      t ∈ terms ∧ (τ.get t = AnalysisType.top ∨ τ.get t = AnalysisType.bottom) := by
    intro t
    rw [offendingTerms_mem τ hnd t, hkeys, List.mem_dedup]
  constructor
  · unfold verdict
    constructor
    · intro hv t ht
      have hnil : offendingTerms τ = [] := by
        by_contra hne
        simp [hne] at hv
      have hnot : t ∉ offendingTerms τ := by rw [hnil]; exact List.not_mem_nil t
      rw [hmem] at hnot
      constructor
      · intro h; exact hnot ⟨ht, Or.inl h⟩
      · intro h; exact hnot ⟨ht, Or.inr h⟩
    · intro h
      have hnil : offendingTerms τ = [] := by
        apply List.eq_nil_iff_forall_not_mem.mpr
        intro t ht
        rw [hmem] at ht
        rcases ht.2 with h2 | h2
        · exact (h t ht.1).1 h2
        · exact (h t ht.1).2 h2
      simp [hnil]
  · intro t ht hbad
    have hin : t ∈ offendingTerms τ := (hmem t).mpr ⟨ht, hbad⟩
    refine ⟨?_, hin⟩
    unfold verdict
    have hne : offendingTerms τ ≠ [] := List.ne_nil_of_mem hin
    simp [hne]

/-- C7: for every clause whose constraints include a literal constant (the term `c`, a term of
the clause, with the immediate bound to its intrinsic type, the one intrinsic type the literal
has), the type the solver assigns to that term after convergence is the intrinsic type exactly,
whatever other constraints (bounds from attribute positions, equalities with other terms, functor
results) involve the term. -/
theorem constant_type_eq_intrinsic (L : TypeLattice) (terms : List AstArgument)
    (cs : List Constraint) (c : AstArgument) (intrinsic : AnalysisType) (hc : c ∈ terms)
    (hb : Constraint.constant c intrinsic ∈ cs)
    (hone : ∀ ty, Constraint.constant c ty ∈ cs → ty = intrinsic) :
    (analyseTypes L terms cs).get c = intrinsic := by
  obtain ⟨n, τ, hrun, hτ, _, _, hfix, _, hkeys⟩ := solve_returns L terms cs
  rw [hτ]
  have hkey : c ∈ τ.map Prod.fst := by rw [hkeys]; exact List.mem_dedup.mpr hc
  have hlit : isLiteral cs c = true := isLiteral_of_mem cs c intrinsic hb
  have hle : L.leq (τ.get c) intrinsic = true := by
    have h := applyAll_constant_leq L (isLiteral cs) c intrinsic cs τ hb hkey
    have hfix2 : applyAll L (isLiteral cs) cs τ = τ := hfix
    rw [hfix2] at h
    exact h
  have habove : L.leq intrinsic (τ.get c) = true := by
    have h := solverLoop_invariant L cs (fun σ => L.leq intrinsic (σ.get c) = true)
      (fun σ hσ => applyAll_above_literal L (isLiteral cs) c intrinsic hlit cs σ hone hσ)
      _ _ (n, τ)
      (by show L.leq intrinsic ((initialTyping terms).get c) = true
          rw [initialTyping_get]; exact L.leq_top intrinsic) hrun
    exact h
  exact L.leq_antisymm _ _ hle habove

/-- Witness of C7: in the sample clause the literal constant, term 0 of intrinsic type `named 1`,
sits in an attribute position declared `named 2` and is unified with the variable term 1; the
solver assigns it `named 1`. -/
theorem constant_type_eq_intrinsic_witness :
    0 ∈ [0, 1] ∧ Constraint.constant 0 (AnalysisType.named 1) ∈ sampleConstraints ∧
      (∀ ty, Constraint.constant 0 ty ∈ sampleConstraints → ty = AnalysisType.named 1) ∧
      (analyseTypes flatLattice [0, 1] sampleConstraints).get 0 = AnalysisType.named 1 :=
  have hone : ∀ ty, Constraint.constant 0 ty ∈ sampleConstraints →
      ty = AnalysisType.named 1 := by
    intro ty h
    simp only [sampleConstraints, List.mem_cons, List.mem_singleton, List.not_mem_nil,
      or_false] at h
    rcases h with h | h | h | h
    · cases h; rfl
    · cases h
    · cases h
    · cases h
  ⟨by decide, List.mem_cons_self _ _, hone,
    constant_type_eq_intrinsic flatLattice [0, 1] sampleConstraints 0 (AnalysisType.named 1)
      (by decide) (List.mem_cons_self _ _) hone⟩

/-- The sample clause evaluated: the literal constant keeps `named 1`; the variable unified with
it is bound to `named 1` too and gets `named 1`. -/
theorem sample_constant_clause :
    analyseTypes flatLattice [0, 1] sampleConstraints =
      [(0, AnalysisType.named 1), (1, AnalysisType.named 1)] := by
  decide

/-- C8: the solver's result is a fixpoint: one more round of all constraints leaves the converged
typing unchanged, running the solver again from it stops after one round on the same typing, and
running it again from `Top` with any number of allowed rounds from the budget on gives the same
typing. -/
theorem solver_idempotent_fixpoint (L : TypeLattice) (terms : List AstArgument)
    (cs : List Constraint) :
    solverRound L cs (analyseTypes L terms cs) = analyseTypes L terms cs ∧
      (∀ fuel, solverLoop L cs (fuel + 1) (analyseTypes L terms cs) =
        some (1, analyseTypes L terms cs)) ∧
      (∀ fuel, roundBudget L terms.dedup.length ≤ fuel →
        (solverLoop L cs fuel (initialTyping terms)).map Prod.snd =
          some (analyseTypes L terms cs)) := by
  obtain ⟨n, τ, hrun, hτ, _, _, hfix, _, _⟩ := solve_returns L terms cs
  rw [hτ]
  refine ⟨hfix, ?_, ?_⟩
  · intro fuel
    rw [solverLoop_succ]
    simp [hfix]
  · intro fuel hfuel
    obtain ⟨k, hk⟩ := Nat.exists_eq_add_of_le hfuel
    rw [hk, solverLoop_more_fuel L cs _ _ _ hrun k]
    rfl

end souffle
